import Mathlib

/-!
Verification of the selection pipeline of `scripts/fetch_ai_news.py`.

Shallow embedding conventions:
* Calendar dates (`%Y-%m-%d` strings in the source, always produced by
  `strftime` and hence valid) are modelled as `Int` day numbers; equality of
  the date strings is equality of the day numbers, and `strptime` order is
  the order on `Int`.
* Where the source compares a *datetime* with day precision against one with
  time-of-day precision (`load_recent_articles`), timestamps are modelled in
  minutes: a date `d` names the midnight instant `1440 * d`.
* The Claude classifier is an external collaborator; its per-batch response is
  an oracle `Nat → Option (List String)`: `none` models a raised transport
  exception or a response with no extractable JSON array (both take the same
  fallback branch in the source), `some cats` the parsed JSON array of labels.
* The archive directory is a list of `FileEntry`; a file entry carries the
  result of parsing its stem as a date and the result of parsing its JSON
  content (`none` = `json.load` would raise).
-/

/-- An article record, as built by `fetch_rss`: `category` is absent until
`classify_articles` assigns it (`a.get("category", ...)` reads it back). -/
structure Article where
  title : String
  url : String
  source : String
  lang : String
  date : Int
  category : Option String
deriving DecidableEq, Repr

/-- The fixed category enumeration `CATEGORIES`. -/
def CATEGORIES : List String :=
  ["LLM・チャットAI", "画像・動画生成", "音声・音楽AI", "ロボティクス・自動運転",
   "AI規制・政策", "AI倫理・安全性", "研究・論文", "AI製品・ツール",
   "企業・資金調達", "医療・科学応用"]

/-- The fallback category literal `"AI製品・ツール"` used throughout the source. -/
def FALLBACK : String := "AI製品・ツール"

/-- The read `a.get("category", "AI製品・ツール")`. -/
def catOf (a : Article) : String := a.category.getD FALLBACK

/-! ## Recency & Dedup Filter (`collect_articles`, lines 99–117) -/

/-- The test `a["date"] in (TODAY, yesterday)`: membership in the primary 2-day window. -/
def primaryP (today : Int) (a : Article) : Bool :=
  a.date == today || a.date == today - 1

/-- The test `datetime.strptime(a["date"]) >= cutoff` with `cutoff = today - 3 days`. -/
def escalP (today : Int) (a : Article) : Bool :=
  decide (today - 3 ≤ a.date)

/-- Lines 100–107: keep the last-2-days articles; if fewer than 5, widen to
all articles dated `today - 3` or later. -/
def recentFilter (today : Int) (arts : List Article) : List Article :=
  let recent := arts.filter (primaryP today)
  if recent.length < 5 then arts.filter (escalP today) else recent

/-- Lines 110–115: first-occurrence URL deduplication, `seen` being the set of
URLs already emitted. -/
def dedupAux : List Article → List String → List Article
  | [], _ => []
  | a :: rest, seen =>
    if a.url ∈ seen then dedupAux rest seen
    else a :: dedupAux rest (a.url :: seen)

/-- URL deduplication started with an empty `seen_urls` set. -/
def dedupByUrl (l : List Article) : List Article := dedupAux l []

/-- The pure part of `collect_articles` (after fetching): recency windowing
with escalation, then URL deduplication. -/
def collectFilter (today : Int) (arts : List Article) : List Article :=
  dedupByUrl (recentFilter today arts)

/-! ### Lemmas about deduplication -/

lemma dedupAux_sublist (l : List Article) (seen : List String) :
    List.Sublist (dedupAux l seen) l := by
  induction l generalizing seen with
  | nil => simp [dedupAux]
  | cons a rest ih =>
    by_cases h : a.url ∈ seen
    · simp only [dedupAux, if_pos h]
      exact (ih seen).cons a
    · simp only [dedupAux, if_neg h]
      exact (ih (a.url :: seen)).cons₂ a

lemma dedupAux_subset {l : List Article} {seen : List String} {a : Article}
    (h : a ∈ dedupAux l seen) : a ∈ l :=
  (dedupAux_sublist l seen).subset h

lemma dedupAux_nodup (l : List Article) (seen : List String) :
    ((dedupAux l seen).map (·.url)).Nodup ∧
      ∀ u ∈ (dedupAux l seen).map (·.url), u ∉ seen := by
  induction l generalizing seen with
  | nil => simp [dedupAux]
  | cons a rest ih =>
    by_cases h : a.url ∈ seen
    · simpa only [dedupAux, if_pos h] using ih seen
    · simp only [dedupAux, if_neg h, List.map_cons]
      obtain ⟨hnd, hns⟩ := ih (a.url :: seen)
      refine ⟨List.nodup_cons.mpr ⟨fun hmem => ?_, hnd⟩, ?_⟩
      · exact (hns _ hmem) (List.mem_cons_self _ _)
      · intro u hu
        rcases List.mem_cons.mp hu with rfl | hu'
        · exact h
        · intro hus
          exact (hns u hu') (List.mem_cons_of_mem _ hus)

lemma dedupAux_eq_self (l : List Article) (seen : List String)
    (h1 : (l.map (·.url)).Nodup)
    (h2 : ∀ u ∈ l.map (·.url), u ∉ seen) :
    dedupAux l seen = l := by
  induction l generalizing seen with
  | nil => simp [dedupAux]
  | cons a rest ih =>
    simp only [List.map_cons, List.nodup_cons] at h1
    have ha : a.url ∉ seen := h2 _ (by simp)
    simp only [dedupAux, if_neg ha]
    congr 1
    refine ih (a.url :: seen) h1.2 ?_
    intro u hu
    intro hus
    rcases List.mem_cons.mp hus with rfl | hus'
    · exact h1.1 hu
    · exact (h2 u (List.mem_cons_of_mem _ hu)) hus'

lemma dedupByUrl_nodup (l : List Article) :
    ((dedupByUrl l).map (·.url)).Nodup :=
  (dedupAux_nodup l []).1

lemma dedupByUrl_of_nodup {l : List Article}
    (h : (l.map (·.url)).Nodup) : dedupByUrl l = l :=
  dedupAux_eq_self l [] h (by simp)

lemma dedupByUrl_sublist (l : List Article) : List.Sublist (dedupByUrl l) l :=
  dedupAux_sublist l []

/-! ### C1 and C2 -/

lemma primaryP_imp_escalP (today : Int) (a : Article)
    (h : primaryP today a = true) : escalP today a = true := by
  simp only [primaryP, Bool.or_eq_true, beq_iff_eq] at h
  simp only [escalP, decide_eq_true_eq]
  omega

/-- C1: the Recency & Dedup Filter is idempotent: re-applying the windowing
(with escalation) and URL deduplication of `collect_articles` to its own
output returns that output unchanged, for every article list and every
`today` — in particular also when the first pass's deduplication leaves
fewer than 5 primary-window articles and the second pass escalates. -/
theorem collectFilter_idem (today : Int) (arts : List Article) :
    collectFilter today (collectFilter today arts) = collectFilter today arts := by
  classical
  set O := collectFilter today arts with hO
  have hOnodup : (O.map (·.url)).Nodup := dedupByUrl_nodup _
  by_cases h : (arts.filter (primaryP today)).length < 5
  · -- first pass escalated
    have hOsub : List.Sublist O (arts.filter (escalP today)) := by
      simpa [hO, collectFilter, recentFilter, if_pos h] using
        dedupByUrl_sublist (arts.filter (escalP today))
    have hmemq : ∀ a ∈ O, escalP today a = true := by
      intro a ha
      exact (List.mem_filter.mp (hOsub.subset ha)).2
    -- the primary-window count of O is still below 5
    have hcount : (O.filter (primaryP today)).length < 5 := by
      have hsub2 : List.Sublist (O.filter (primaryP today))
          ((arts.filter (escalP today)).filter (primaryP today)) :=
        hOsub.filter (primaryP today)
      have heq : (arts.filter (escalP today)).filter (primaryP today)
          = arts.filter (primaryP today) := by
        rw [List.filter_filter]
        refine List.filter_congr ?_
        intro a _
        by_cases hp : primaryP today a = true
        · simp [hp, primaryP_imp_escalP today a hp]
        · simp [Bool.eq_false_iff.mpr hp]
      calc (O.filter (primaryP today)).length
          ≤ ((arts.filter (escalP today)).filter (primaryP today)).length :=
            hsub2.length_le
        _ = (arts.filter (primaryP today)).length := by rw [heq]
        _ < 5 := h
    have hstep : recentFilter today O = O := by
      have : O.filter (escalP today) = O := List.filter_eq_self.mpr hmemq
      simp [recentFilter, if_pos hcount, this]
    simp [collectFilter, hstep, dedupByUrl_of_nodup hOnodup]
  · -- first pass used the primary window
    have hOsub : List.Sublist O (arts.filter (primaryP today)) := by
      simpa [hO, collectFilter, recentFilter, if_neg h] using
        dedupByUrl_sublist (arts.filter (primaryP today))
    have hmemp : ∀ a ∈ O, primaryP today a = true := by
      intro a ha
      exact (List.mem_filter.mp (hOsub.subset ha)).2
    have hfp : O.filter (primaryP today) = O := List.filter_eq_self.mpr hmemp
    have hfq : O.filter (escalP today) = O :=
      List.filter_eq_self.mpr fun a ha => primaryP_imp_escalP today a (hmemp a ha)
    have hstep : recentFilter today O = O := by
      simp [recentFilter, hfp, hfq]
    simp [collectFilter, hstep, dedupByUrl_of_nodup hOnodup]

/-- C2: window escalation: when at least 5 articles fall in the primary
2-day window (dated `today` or `today - 1`), the windowing stage keeps
exactly those; when fewer than 5 do, it keeps exactly the articles dated
`today - 3` or later — so an article dated exactly 3 days ago is included —
and an article dated 4 days ago is never kept on either path. -/
theorem recentFilter_escalation (today : Int) (arts : List Article) :
    (5 ≤ (arts.filter (primaryP today)).length →
      recentFilter today arts = arts.filter (primaryP today)) ∧
    ((arts.filter (primaryP today)).length < 5 →
      ∀ a, a ∈ recentFilter today arts ↔ a ∈ arts ∧ today - 3 ≤ a.date) ∧
    (∀ a ∈ arts, a.date = today - 4 → a ∉ recentFilter today arts) := by
  refine ⟨fun h => ?_, fun h a => ?_, fun a _ ha => ?_⟩
  · have : ¬ (arts.filter (primaryP today)).length < 5 := by omega
    simp [recentFilter, if_neg this]
  · simp [recentFilter, if_pos h, List.mem_filter, escalP]
  · intro hmem
    by_cases h : (arts.filter (primaryP today)).length < 5
    · simp only [recentFilter, if_pos h] at hmem
      have := (List.mem_filter.mp hmem).2
      simp only [escalP, decide_eq_true_eq] at this
      omega
    · simp only [recentFilter, if_neg h] at hmem
      have := (List.mem_filter.mp hmem).2
      simp only [primaryP, Bool.or_eq_true, beq_iff_eq] at this
      omega

/-- Witness article dated 3 days before day 10. -/
def witArt3 : Article := ⟨"t3", "u3", "s", "en", 7, none⟩

/-- Witness article dated 4 days before day 10. -/
def witArt4 : Article := ⟨"t4", "u4", "s", "en", 6, none⟩

/-- Witness for C2: with only two articles (dated `10 - 3` and `10 - 4`) the
primary window is under-filled, the filter escalates, keeps the 3-day-old
article and drops the 4-day-old one. -/
theorem recentFilter_escalation_witness :
    (witArt3 ∈ recentFilter 10 [witArt3, witArt4] ↔
      witArt3 ∈ [witArt3, witArt4] ∧ (10 : Int) - 3 ≤ witArt3.date) ∧
    witArt4 ∉ recentFilter 10 [witArt3, witArt4] :=
  ⟨(recentFilter_escalation 10 [witArt3, witArt4]).2.1 (by decide) witArt3,
   (recentFilter_escalation 10 [witArt3, witArt4]).2.2 witArt4 (by decide) (by decide)⟩

/-! ## Balanced Selector (`select_top_articles`, lines 187–215) -/

/-- One step of building `by_cat`: append article `a` to the group for `cat`,
creating the group at the end (first-seen key order) if absent — the ordered
dict `by_cat` of lines 193–198. -/
def insertByCat : List (String × List Article) → String → Article →
    List (String × List Article)
  | [], cat, a => [(cat, [a])]
  | (c, g) :: rest, cat, a =>
    if c = cat then (c, g ++ [a]) :: rest
    else (c, g) :: insertByCat rest cat a

/-- Lines 193–198: group articles by `a.get("category", "AI製品・ツール")`,
keys in first-seen order, each group in input order. -/
def groupByCat (arts : List Article) : List (String × List Article) :=
  arts.foldl (fun m a => insertByCat m (catOf a) a) []

/-- One pass of the `for cat in cat_keys` loop (lines 207–211): walk the
groups in key order; from each group with remaining items, move its next
item to `sel` as long as `sel` is still below `cap`; groups reached after
the cap is hit are left untouched. Consuming a group's head models
advancing `idx_per_cat[cat]`. -/
def sweep (cap : Nat) (sel : List Article) :
    List (String × List Article) → List Article × List (String × List Article)
  | [] => (sel, [])
  | (c, []) :: gs =>
    let (s, r) := sweep cap sel gs
    (s, (c, []) :: r)
  | (c, a :: g) :: gs =>
    if sel.length < cap then
      let (s, r) := sweep cap (sel ++ [a]) gs
      (s, (c, g) :: r)
    else (sel, (c, a :: g) :: gs)

/-- The `while len(selected) < max_count` loop (lines 205–213): repeat sweeps
until the cap is reached or a sweep adds nothing (`added` false).  Each
iteration that recurses has added at least one article, so `cap` units of
fuel suffice to reproduce the loop exactly: when the fuel runs out,
`sel.length` already equals `cap` and the Python loop would stop too. -/
def rrLoop : Nat → Nat → List Article → List (String × List Article) → List Article
  | 0, _, sel, _ => sel
  | fuel + 1, cap, sel, groups =>
    if sel.length < cap then
      let (s, r) := sweep cap sel groups
      if s.length = sel.length then sel else rrLoop fuel cap s r
    else sel

/-- Function `select_top_articles` (lines 187–215): inputs not exceeding `max_count`
are returned unchanged; otherwise round-robin over the category groups. -/
def select_top_articles (articles : List Article) (max_count : Nat) : List Article :=
  if articles.length ≤ max_count then articles
  else rrLoop max_count max_count [] (groupByCat articles)

/-- Total number of articles remaining in the groups. -/
def totalLen (gs : List (String × List Article)) : Nat :=
  (gs.map (fun p => p.2.length)).sum

/-! ### Selector lemmas -/

lemma totalLen_nil : totalLen [] = 0 := rfl

lemma totalLen_cons (c : String) (g : List Article) (gs : List (String × List Article)) :
    totalLen ((c, g) :: gs) = g.length + totalLen gs := by
  simp [totalLen]

lemma totalLen_insertByCat (m : List (String × List Article)) (cat : String) (a : Article) :
    totalLen (insertByCat m cat a) = totalLen m + 1 := by
  induction m with
  | nil => simp [insertByCat, totalLen]
  | cons p rest ih =>
    obtain ⟨c, g⟩ := p
    by_cases h : c = cat
    · simp [insertByCat, if_pos h, totalLen_cons]
      omega
    · simp [insertByCat, if_neg h, totalLen_cons, ih]
      omega

lemma totalLen_groupByCat (arts : List Article) :
    totalLen (groupByCat arts) = arts.length := by
  suffices h : ∀ (l : List Article) (m : List (String × List Article)),
      totalLen (l.foldl (fun m a => insertByCat m (catOf a) a) m) = totalLen m + l.length by
    simpa [groupByCat, totalLen] using h arts []
  intro l
  induction l with
  | nil => simp
  | cons a rest ih =>
    intro m
    simp only [List.foldl_cons, ih, totalLen_insertByCat, List.length_cons]
    omega

lemma sweep_conserve (cap : Nat) (sel : List Article)
    (gs : List (String × List Article)) :
    (sweep cap sel gs).1.length + totalLen (sweep cap sel gs).2
      = sel.length + totalLen gs := by
  induction gs generalizing sel with
  | nil => simp [sweep, totalLen]
  | cons p gs ih =>
    obtain ⟨c, g⟩ := p
    cases g with
    | nil =>
      simp only [sweep, totalLen_cons, List.length_nil]
      have := ih sel
      omega
    | cons a g =>
      by_cases h : sel.length < cap
      · simp only [sweep, if_pos h, totalLen_cons, List.length_cons]
        have := ih (sel ++ [a])
        simp only [List.length_append, List.length_cons, List.length_nil] at this
        omega
      · simp only [sweep, if_neg h]

lemma sweep_extends (cap : Nat) (sel : List Article)
    (gs : List (String × List Article)) :
    ∃ t, (sweep cap sel gs).1 = sel ++ t := by
  induction gs generalizing sel with
  | nil => exact ⟨[], by simp [sweep]⟩
  | cons p gs ih =>
    obtain ⟨c, g⟩ := p
    cases g with
    | nil => simpa [sweep] using ih sel
    | cons a g =>
      by_cases h : sel.length < cap
      · obtain ⟨t, ht⟩ := ih (sel ++ [a])
        exact ⟨a :: t, by simp [sweep, if_pos h, ht]⟩
      · exact ⟨[], by simp [sweep, if_neg h]⟩

lemma sweep_mono (cap : Nat) (sel : List Article)
    (gs : List (String × List Article)) :
    sel.length ≤ (sweep cap sel gs).1.length := by
  obtain ⟨t, ht⟩ := sweep_extends cap sel gs
  simp [ht]

lemma sweep_le_cap (cap : Nat) (sel : List Article)
    (gs : List (String × List Article)) (h : sel.length ≤ cap) :
    (sweep cap sel gs).1.length ≤ cap := by
  induction gs generalizing sel with
  | nil => simpa [sweep] using h
  | cons p gs ih =>
    obtain ⟨c, g⟩ := p
    cases g with
    | nil => simpa [sweep] using ih sel h
    | cons a g =>
      by_cases hlt : sel.length < cap
      · have : (sel ++ [a]).length ≤ cap := by
          simp only [List.length_append, List.length_cons, List.length_nil]
          omega
        simpa [sweep, if_pos hlt] using ih (sel ++ [a]) this
      · simpa [sweep, if_neg hlt] using h

lemma sweep_progress (cap : Nat) (sel : List Article)
    (gs : List (String × List Article)) (hlt : sel.length < cap)
    (hpos : 0 < totalLen gs) :
    sel.length < (sweep cap sel gs).1.length := by
  induction gs generalizing sel with
  | nil => simp [totalLen] at hpos
  | cons p gs ih =>
    obtain ⟨c, g⟩ := p
    cases g with
    | nil =>
      simp only [totalLen_cons, List.length_nil, Nat.zero_add] at hpos
      simpa [sweep] using ih sel hlt hpos
    | cons a g =>
      have hmono := sweep_mono cap (sel ++ [a]) gs
      simp only [sweep, if_pos hlt]
      simp only [List.length_append, List.length_cons, List.length_nil] at hmono ⊢
      omega

lemma rrLoop_length (fuel cap : Nat) (sel : List Article)
    (gs : List (String × List Article))
    (h1 : sel.length ≤ cap)
    (h2 : cap ≤ sel.length + totalLen gs)
    (h3 : cap ≤ sel.length + fuel) :
    (rrLoop fuel cap sel gs).length = cap := by
  induction fuel generalizing sel gs with
  | zero =>
    simp only [rrLoop]
    omega
  | succ fuel ih =>
    by_cases hlt : sel.length < cap
    · have hpos : 0 < totalLen gs := by omega
      have hprog := sweep_progress cap sel gs hlt hpos
      have hcons := sweep_conserve cap sel gs
      have hcap := sweep_le_cap cap sel gs h1
      simp only [rrLoop, if_pos hlt]
      have hne : ¬ (sweep cap sel gs).1.length = sel.length := by omega
      simp only [if_neg hne]
      exact ih (sweep cap sel gs).1 (sweep cap sel gs).2 hcap (by omega) (by omega)
    · simp only [rrLoop, if_neg hlt]
      omega

/-- C3: balanced selection bound: the output of `select_top_articles` has
length exactly `min max_count (input length)` — in particular when the
input exceeds `max_count` the round-robin loop reaches `max_count` items
before all categories are exhausted. -/
theorem select_top_articles_length (articles : List Article) (max_count : Nat) :
    (select_top_articles articles max_count).length = min max_count articles.length := by
  by_cases h : articles.length ≤ max_count
  · simp only [select_top_articles, if_pos h]
    omega
  · simp only [select_top_articles, if_neg h]
    have htot := totalLen_groupByCat articles
    have := rrLoop_length max_count max_count [] (groupByCat articles)
      (by simp) (by simp [htot]; omega) (by simp)
    omega

/-! ### Characterizing `by_cat` -/

/-- Look up the (first) group stored under key `c`. -/
def findGroup : List (String × List Article) → String → List Article
  | [], _ => []
  | (c0, g) :: rest, c => if c0 = c then g else findGroup rest c

lemma findGroup_insertByCat (m : List (String × List Article)) (cat : String)
    (a : Article) (c : String) :
    findGroup (insertByCat m cat a) c =
      if c = cat then findGroup m cat ++ [a] else findGroup m c := by
  induction m with
  | nil =>
    by_cases h : c = cat
    · subst h
      simp [insertByCat, findGroup]
    · have h' : ¬ cat = c := fun hh => h hh.symm
      simp [insertByCat, findGroup, h, h']
  | cons p rest ih =>
    obtain ⟨c0, g0⟩ := p
    by_cases h0 : c0 = cat
    · subst h0
      by_cases hc : c0 = c
      · subst hc
        simp [insertByCat, findGroup]
      · have hc' : ¬ c = c0 := fun hh => hc hh.symm
        simp [insertByCat, findGroup, hc, hc']
    · by_cases hc : c0 = c
      · subst hc
        have hc' : ¬ c0 = cat := h0
        simp [insertByCat, findGroup, hc']
      · simp [insertByCat, findGroup, h0, hc, ih]

lemma keys_insertByCat (m : List (String × List Article)) (cat : String)
    (a : Article) (c : String) :
    c ∈ (insertByCat m cat a).map Prod.fst ↔ c ∈ m.map Prod.fst ∨ c = cat := by
  induction m with
  | nil => simp [insertByCat]
  | cons p rest ih =>
    obtain ⟨c0, g0⟩ := p
    by_cases h0 : c0 = cat
    · subst h0
      rw [insertByCat, if_pos rfl]
      simp only [List.map_cons, List.mem_cons]
      tauto
    · simp only [insertByCat, if_neg h0, List.map_cons, List.mem_cons, ih]
      tauto

lemma keys_nodup_insertByCat (m : List (String × List Article)) (cat : String)
    (a : Article) (h : (m.map Prod.fst).Nodup) :
    ((insertByCat m cat a).map Prod.fst).Nodup := by
  induction m with
  | nil => simp [insertByCat]
  | cons p rest ih =>
    obtain ⟨c0, g0⟩ := p
    simp only [List.map_cons, List.nodup_cons] at h
    by_cases h0 : c0 = cat
    · subst h0
      simpa [insertByCat, List.nodup_cons] using h
    · simp only [insertByCat, if_neg h0, List.map_cons, List.nodup_cons]
      refine ⟨?_, ih h.2⟩
      rw [keys_insertByCat]
      rintro (hmem | rfl)
      · exact h.1 hmem
      · exact h0 rfl

lemma mem_group_eq_findGroup (m : List (String × List Article))
    (h : (m.map Prod.fst).Nodup) :
    ∀ p ∈ m, p.2 = findGroup m p.1 := by
  induction m with
  | nil => simp
  | cons q rest ih =>
    obtain ⟨c0, g0⟩ := q
    simp only [List.map_cons, List.nodup_cons] at h
    intro p hp
    rcases List.mem_cons.mp hp with rfl | hp'
    · simp [findGroup]
    · have hne : ¬ c0 = p.1 := by
        intro hc
        exact h.1 (hc ▸ (List.mem_map.mpr ⟨p, hp', rfl⟩))
      simp only [findGroup, if_neg hne]
      exact ih h.2 p hp'

lemma findGroup_of_not_mem_keys (m : List (String × List Article)) (c : String)
    (h : c ∉ m.map Prod.fst) : findGroup m c = [] := by
  induction m with
  | nil => simp [findGroup]
  | cons p rest ih =>
    obtain ⟨c0, g0⟩ := p
    simp only [List.map_cons, List.mem_cons] at h
    push_neg at h
    simp only [findGroup, if_neg (fun hh : c0 = c => h.1 hh.symm)]
    exact ih h.2

lemma groups_ne_nil_insertByCat (m : List (String × List Article)) (cat : String)
    (a : Article) (h : ∀ p ∈ m, p.2 ≠ []) :
    ∀ p ∈ insertByCat m cat a, p.2 ≠ [] := by
  induction m with
  | nil =>
    intro p hp
    simp only [insertByCat, List.mem_singleton] at hp
    subst hp
    simp
  | cons q rest ih =>
    obtain ⟨c0, g0⟩ := q
    intro p hp
    by_cases h0 : c0 = cat
    · subst h0
      rw [insertByCat, if_pos rfl] at hp
      rcases List.mem_cons.mp hp with heq | hp'
      · subst heq
        simp
      · exact h p (List.mem_cons_of_mem _ hp')
    · rw [insertByCat, if_neg h0] at hp
      rcases List.mem_cons.mp hp with heq | hp'
      · subst heq
        exact h _ (List.mem_cons_self _ _)
      · exact ih (fun q hq => h q (List.mem_cons_of_mem _ hq)) p hp'

lemma groupByCat_keys_nodup (arts : List Article) :
    ((groupByCat arts).map Prod.fst).Nodup := by
  suffices h : ∀ (l : List Article) (m : List (String × List Article)),
      (m.map Prod.fst).Nodup →
      ((l.foldl (fun m a => insertByCat m (catOf a) a) m).map Prod.fst).Nodup by
    exact h arts [] (by simp)
  intro l
  induction l with
  | nil => exact fun m hm => hm
  | cons a rest ih =>
    intro m hm
    exact ih _ (keys_nodup_insertByCat m (catOf a) a hm)

lemma groupByCat_groups_ne_nil (arts : List Article) :
    ∀ p ∈ groupByCat arts, p.2 ≠ [] := by
  suffices h : ∀ (l : List Article) (m : List (String × List Article)),
      (∀ p ∈ m, p.2 ≠ []) →
      ∀ p ∈ l.foldl (fun m a => insertByCat m (catOf a) a) m, p.2 ≠ [] by
    exact h arts [] (by simp)
  intro l
  induction l with
  | nil => exact fun m hm => hm
  | cons a rest ih =>
    intro m hm
    exact ih _ (groups_ne_nil_insertByCat m (catOf a) a hm)

lemma findGroup_groupByCat (arts : List Article) (c : String) :
    findGroup (groupByCat arts) c = arts.filter (fun a => catOf a == c) := by
  suffices h : ∀ (l : List Article) (m : List (String × List Article)),
      findGroup (l.foldl (fun m a => insertByCat m (catOf a) a) m) c
        = findGroup m c ++ l.filter (fun a => catOf a == c) by
    simpa [findGroup] using h arts []
  intro l
  induction l with
  | nil => simp
  | cons a rest ih =>
    intro m
    simp only [List.foldl_cons, ih, findGroup_insertByCat]
    by_cases hc : c = catOf a
    · simp [if_pos hc, List.filter_cons, hc.symm, List.append_assoc]
    · have : ¬ (catOf a == c) = true := by
        simp [beq_iff_eq]
        exact fun hh => hc hh.symm
      simp [if_neg hc, List.filter_cons, this]

lemma groupByCat_group_eq_filter (arts : List Article) :
    ∀ p ∈ groupByCat arts, p.2 = arts.filter (fun a => catOf a == p.1) := by
  intro p hp
  rw [mem_group_eq_findGroup _ (groupByCat_keys_nodup arts) p hp,
    findGroup_groupByCat]

lemma groupByCat_matches (arts : List Article) :
    ∀ p ∈ groupByCat arts, ∀ x ∈ p.2, catOf x = p.1 := by
  intro p hp x hx
  rw [groupByCat_group_eq_filter arts p hp] at hx
  simpa [beq_iff_eq] using (List.mem_filter.mp hx).2

lemma filter_eq_nil_of_not_mem_keys (arts : List Article) (c : String)
    (h : c ∉ (groupByCat arts).map Prod.fst) :
    arts.filter (fun a => catOf a == c) = [] := by
  rw [← findGroup_groupByCat]
  exact findGroup_of_not_mem_keys _ _ h

/-! ### Round-robin invariants -/

lemma sweep_keys (cap : Nat) (sel : List Article) (gs : List (String × List Article)) :
    (sweep cap sel gs).2.map Prod.fst = gs.map Prod.fst := by
  induction gs generalizing sel with
  | nil => simp [sweep]
  | cons p gs ih =>
    obtain ⟨c0, g0⟩ := p
    cases g0 with
    | nil => simp [sweep, ih]
    | cons a g =>
      by_cases h : sel.length < cap
      · simp [sweep, if_pos h, ih]
      · simp [sweep, if_neg h]

lemma sweep_matches (cap : Nat) (sel : List Article) (gs : List (String × List Article))
    (hm : ∀ p ∈ gs, ∀ x ∈ p.2, catOf x = p.1) :
    ∀ p ∈ (sweep cap sel gs).2, ∀ x ∈ p.2, catOf x = p.1 := by
  induction gs generalizing sel with
  | nil => simp [sweep]
  | cons q gs ih =>
    obtain ⟨c0, g0⟩ := q
    cases g0 with
    | nil =>
      intro p hp
      simp only [sweep, List.mem_cons] at hp
      rcases hp with rfl | hp'
      · simp
      · exact ih sel (fun q hq => hm q (List.mem_cons_of_mem _ hq)) p hp'
    | cons a g =>
      by_cases h : sel.length < cap
      · intro p hp
        simp only [sweep, if_pos h, List.mem_cons] at hp
        rcases hp with rfl | hp'
        · intro x hx
          exact hm (c0, a :: g) (List.mem_cons_self _ _) x (List.mem_cons_of_mem _ hx)
        · exact ih (sel ++ [a]) (fun q hq => hm q (List.mem_cons_of_mem _ hq)) p hp'
      · intro p hp
        simp only [sweep, if_neg h] at hp
        exact hm p hp

lemma sweep_filter_inv (cap : Nat) (sel : List Article)
    (gs : List (String × List Article))
    (hk : (gs.map Prod.fst).Nodup)
    (hm : ∀ p ∈ gs, ∀ x ∈ p.2, catOf x = p.1) (c : String) :
    (sweep cap sel gs).1.filter (fun x => catOf x == c)
        ++ findGroup (sweep cap sel gs).2 c
      = sel.filter (fun x => catOf x == c) ++ findGroup gs c := by
  induction gs generalizing sel with
  | nil => simp [sweep]
  | cons q gs ih =>
    obtain ⟨c0, g0⟩ := q
    simp only [List.map_cons, List.nodup_cons] at hk
    have hm' : ∀ p ∈ gs, ∀ x ∈ p.2, catOf x = p.1 :=
      fun q hq => hm q (List.mem_cons_of_mem _ hq)
    cases g0 with
    | nil =>
      have heq := ih sel hk.2 hm'
      by_cases hc : c0 = c
      · subst hc
        have hg : findGroup gs c0 = [] :=
          findGroup_of_not_mem_keys _ _ hk.1
        have hr : findGroup (sweep cap sel gs).2 c0 = [] := by
          refine findGroup_of_not_mem_keys _ _ ?_
          rw [sweep_keys]
          exact hk.1
        simp only [sweep, findGroup, if_pos rfl]
        rw [hg, hr] at heq
        simpa using heq
      · simp only [sweep, findGroup, if_neg hc]
        exact heq
    | cons a g =>
      have hca : catOf a = c0 :=
        hm (c0, a :: g) (List.mem_cons_self _ _) a (List.mem_cons_self _ _)
      by_cases hlt : sel.length < cap
      · have heq := ih (sel ++ [a]) hk.2 hm'
        by_cases hc : c0 = c
        · subst hc
          have hg : findGroup gs c0 = [] :=
            findGroup_of_not_mem_keys _ _ hk.1
          have hr : findGroup (sweep cap (sel ++ [a]) gs).2 c0 = [] := by
            refine findGroup_of_not_mem_keys _ _ ?_
            rw [sweep_keys]
            exact hk.1
          rw [hg, hr] at heq
          simp only [List.append_nil] at heq
          have hfa : (sel ++ [a]).filter (fun x => catOf x == c0)
              = sel.filter (fun x => catOf x == c0) ++ [a] := by
            simp [List.filter_append, hca]
          simp only [sweep, if_pos hlt, findGroup, if_pos rfl]
          rw [heq, hfa, List.append_assoc]
          simp [findGroup]
        · have hfa : (sel ++ [a]).filter (fun x => catOf x == c)
              = sel.filter (fun x => catOf x == c) := by
            have : ¬ (catOf a == c) = true := by
              simp [beq_iff_eq, hca]
              exact hc
            simp [List.filter_append, this]
          simp only [sweep, if_pos hlt, findGroup, if_neg hc]
          rw [heq, hfa]
      · simp only [sweep, if_neg hlt]

lemma rrLoop_extends (fuel cap : Nat) (sel : List Article)
    (gs : List (String × List Article)) :
    ∃ t, rrLoop fuel cap sel gs = sel ++ t := by
  induction fuel generalizing sel gs with
  | zero => exact ⟨[], by simp [rrLoop]⟩
  | succ fuel ih =>
    by_cases hlt : sel.length < cap
    · by_cases heq : (sweep cap sel gs).1.length = sel.length
      · exact ⟨[], by simp [rrLoop, if_pos hlt, if_pos heq]⟩
      · obtain ⟨t1, ht1⟩ := sweep_extends cap sel gs
        obtain ⟨t2, ht2⟩ := ih (sweep cap sel gs).1 (sweep cap sel gs).2
        refine ⟨t1 ++ t2, ?_⟩
        simp only [rrLoop, if_pos hlt, if_neg heq]
        rw [ht2, ht1, List.append_assoc]
    · exact ⟨[], by simp [rrLoop, if_neg hlt]⟩

lemma rrLoop_filter_sub (fuel cap : Nat) (sel : List Article)
    (gs : List (String × List Article))
    (hk : (gs.map Prod.fst).Nodup)
    (hm : ∀ p ∈ gs, ∀ x ∈ p.2, catOf x = p.1) (c : String) :
    ∃ rest, (rrLoop fuel cap sel gs).filter (fun x => catOf x == c) ++ rest
      = sel.filter (fun x => catOf x == c) ++ findGroup gs c := by
  induction fuel generalizing sel gs with
  | zero => exact ⟨findGroup gs c, by simp [rrLoop]⟩
  | succ fuel ih =>
    by_cases hlt : sel.length < cap
    · by_cases heq : (sweep cap sel gs).1.length = sel.length
      · exact ⟨findGroup gs c, by simp [rrLoop, if_pos hlt, if_pos heq]⟩
      · have hk' : ((sweep cap sel gs).2.map Prod.fst).Nodup := by
          rw [sweep_keys]; exact hk
        have hm' := sweep_matches cap sel gs hm
        obtain ⟨rest, hrest⟩ := ih (sweep cap sel gs).1 (sweep cap sel gs).2 hk' hm'
        refine ⟨rest, ?_⟩
        simp only [rrLoop, if_pos hlt, if_neg heq]
        rw [hrest, sweep_filter_inv cap sel gs hk hm c]
    · exact ⟨findGroup gs c, by simp [rrLoop, if_neg hlt]⟩

lemma sweep_hits_all (cap : Nat) (sel : List Article)
    (gs : List (String × List Article))
    (h : sel.length + gs.length ≤ cap)
    (hne : ∀ p ∈ gs, p.2 ≠ [])
    (hm : ∀ p ∈ gs, ∀ x ∈ p.2, catOf x = p.1) :
    ∀ p ∈ gs, ∃ x ∈ (sweep cap sel gs).1, catOf x = p.1 := by
  induction gs generalizing sel with
  | nil => simp
  | cons q gs ih =>
    obtain ⟨c0, g0⟩ := q
    cases g0 with
    | nil => exact absurd rfl (hne (c0, []) (List.mem_cons_self _ _))
    | cons a g =>
      have hlt : sel.length < cap := by
        simp only [List.length_cons] at h
        omega
      have hca : catOf a = c0 :=
        hm (c0, a :: g) (List.mem_cons_self _ _) a (List.mem_cons_self _ _)
      obtain ⟨t, ht⟩ := sweep_extends cap (sel ++ [a]) gs
      intro p hp
      rcases List.mem_cons.mp hp with rfl | hp'
      · refine ⟨a, ?_, hca⟩
        simp only [sweep, if_pos hlt, ht]
        simp
      · have h' : (sel ++ [a]).length + gs.length ≤ cap := by
          simp only [List.length_append, List.length_cons, List.length_nil,
            List.length_cons] at h ⊢
          omega
        obtain ⟨x, hx, hcx⟩ := ih (sel ++ [a])
          h'
          (fun q hq => hne q (List.mem_cons_of_mem _ hq))
          (fun q hq => hm q (List.mem_cons_of_mem _ hq)) p hp'
        refine ⟨x, ?_, hcx⟩
        simp only [sweep, if_pos hlt]
        exact hx

lemma groupByCat_ne_nil {arts : List Article} (h : arts ≠ []) :
    groupByCat arts ≠ [] := by
  intro hgc
  have := totalLen_groupByCat arts
  rw [hgc] at this
  simp only [totalLen_nil] at this
  exact h (List.length_eq_zero.mp this.symm)

/-- C4: round-robin fairness on the 10/2/1 instance: when grouping yields
categories `cA` (10 articles), `cB` (2), `cC` (1) in that first-seen order,
`select_top_articles` with `max_count = 5` returns the first two of `cA`,
the first two of `cB` and the one of `cC`, interleaved round-robin — so
exactly 2 articles of `cA`, 2 of `cB` and 1 of `cC`, each category
contributing its earliest articles in input order. -/
theorem select_round_robin_fairness
    (arts : List Article) (cA cB cC : String)
    (a0 a1 a2 a3 a4 a5 a6 a7 a8 a9 b0 b1 c0 : Article)
    (hAB : cA ≠ cB) (hAC : cA ≠ cC) (hBC : cB ≠ cC)
    (h : groupByCat arts =
      [(cA, [a0, a1, a2, a3, a4, a5, a6, a7, a8, a9]), (cB, [b0, b1]), (cC, [c0])]) :
    select_top_articles arts 5 = [a0, b0, c0, a1, b1] ∧
    (select_top_articles arts 5).countP (fun x => catOf x == cA) = 2 ∧
    (select_top_articles arts 5).countP (fun x => catOf x == cB) = 2 ∧
    (select_top_articles arts 5).countP (fun x => catOf x == cC) = 1 := by
  have hlen : arts.length = 13 := by
    have ht := totalLen_groupByCat arts
    rw [h] at ht
    simp [totalLen] at ht
    omega
  have hnot : ¬ arts.length ≤ 5 := by omega
  have hsel : select_top_articles arts 5 = [a0, b0, c0, a1, b1] := by
    rw [select_top_articles, if_neg hnot, h]
    rfl
  have hmA : ∀ x ∈ ([a0, a1, a2, a3, a4, a5, a6, a7, a8, a9] : List Article),
      catOf x = cA := fun x hx =>
    groupByCat_matches arts (cA, [a0, a1, a2, a3, a4, a5, a6, a7, a8, a9])
      (by rw [h]; simp) x hx
  have hmB : ∀ x ∈ ([b0, b1] : List Article), catOf x = cB := fun x hx =>
    groupByCat_matches arts (cB, [b0, b1]) (by rw [h]; simp) x hx
  have hmC : catOf c0 = cC :=
    groupByCat_matches arts (cC, [c0]) (by rw [h]; simp) c0 (by simp)
  have ha0 : catOf a0 = cA := hmA a0 (by simp)
  have ha1 : catOf a1 = cA := hmA a1 (by simp)
  have hb0 : catOf b0 = cB := hmB b0 (by simp)
  have hb1 : catOf b1 = cB := hmB b1 (by simp)
  have hBA : cB ≠ cA := fun hh => hAB hh.symm
  have hCA : cC ≠ cA := fun hh => hAC hh.symm
  have hCB : cC ≠ cB := fun hh => hBC hh.symm
  refine ⟨hsel, ?_, ?_, ?_⟩ <;>
    simp [hsel, List.countP_cons, ha0, ha1, hb0, hb1, hmC,
      hAB, hAC, hBC, hBA, hCA, hCB]

def xA0 : Article := ⟨"a0", "ua0", "s", "en", 0, some "A"⟩
def xA1 : Article := ⟨"a1", "ua1", "s", "en", 0, some "A"⟩
def xA2 : Article := ⟨"a2", "ua2", "s", "en", 0, some "A"⟩
def xA3 : Article := ⟨"a3", "ua3", "s", "en", 0, some "A"⟩
def xA4 : Article := ⟨"a4", "ua4", "s", "en", 0, some "A"⟩
def xA5 : Article := ⟨"a5", "ua5", "s", "en", 0, some "A"⟩
def xA6 : Article := ⟨"a6", "ua6", "s", "en", 0, some "A"⟩
def xA7 : Article := ⟨"a7", "ua7", "s", "en", 0, some "A"⟩
def xA8 : Article := ⟨"a8", "ua8", "s", "en", 0, some "A"⟩
def xA9 : Article := ⟨"a9", "ua9", "s", "en", 0, some "A"⟩
def xB0 : Article := ⟨"b0", "ub0", "s", "en", 0, some "B"⟩
def xB1 : Article := ⟨"b1", "ub1", "s", "en", 0, some "B"⟩
def xC0 : Article := ⟨"c0", "uc0", "s", "en", 0, some "C"⟩

/-- A concrete 13-article input: 10 of category A, 2 of B, 1 of C. -/
def wArts13 : List Article :=
  [xA0, xA1, xA2, xA3, xA4, xA5, xA6, xA7, xA8, xA9, xB0, xB1, xC0]

/-- Witness for C4 at a concrete input. -/
theorem select_round_robin_fairness_witness :
    select_top_articles wArts13 5 = [xA0, xB0, xC0, xA1, xB1] ∧
    (select_top_articles wArts13 5).countP (fun x => catOf x == "A") = 2 ∧
    (select_top_articles wArts13 5).countP (fun x => catOf x == "B") = 2 ∧
    (select_top_articles wArts13 5).countP (fun x => catOf x == "C") = 1 :=
  select_round_robin_fairness wArts13 "A" "B" "C"
    xA0 xA1 xA2 xA3 xA4 xA5 xA6 xA7 xA8 xA9 xB0 xB1 xC0
    (by decide) (by decide) (by decide) (by decide)

/-- C10: implicit fairness floor: when the input is strictly longer than
`max_count` and the number of distinct categories (the keys of `by_cat`,
in first-seen order, duplicate-free) is at most `max_count`, every distinct
category contributes at least one article to the output, and for every
category the output's articles of that category form a sublist of the
input's articles of that category — i.e. they appear in input-relative
order and no input occurrence is selected twice. -/
theorem select_fairness_floor (arts : List Article) (cap : Nat)
    (h1 : cap < arts.length)
    (h2 : ((groupByCat arts).map Prod.fst).length ≤ cap) :
    (∀ c ∈ (groupByCat arts).map Prod.fst,
      ∃ x ∈ select_top_articles arts cap, catOf x = c) ∧
    (∀ c : String,
      List.Sublist ((select_top_articles arts cap).filter (fun x => catOf x == c))
        (arts.filter (fun x => catOf x == c))) := by
  have hnot : ¬ arts.length ≤ cap := by omega
  have hsel : select_top_articles arts cap = rrLoop cap cap [] (groupByCat arts) := by
    rw [select_top_articles, if_neg hnot]
  constructor
  · intro c hc
    have hne : arts ≠ [] := by
      intro hnil
      rw [hnil] at h1
      simp at h1
    have hgne : groupByCat arts ≠ [] := groupByCat_ne_nil hne
    have hkpos : 0 < (groupByCat arts).length := List.length_pos.mpr hgne
    obtain ⟨n, rfl⟩ : ∃ n, cap = n + 1 := by
      refine ⟨cap - 1, ?_⟩
      rw [List.length_map] at h2
      omega
    obtain ⟨p, hp, hpc⟩ := List.mem_map.mp hc
    have hhits := sweep_hits_all (n + 1) [] (groupByCat arts)
      (by rw [List.length_map] at h2; simpa using h2)
      (groupByCat_groups_ne_nil arts) (groupByCat_matches arts) p hp
    obtain ⟨x, hxs, hxc⟩ := hhits
    have hslen : ¬ (sweep (n + 1) [] (groupByCat arts)).1.length
        = ([] : List Article).length := by
      intro h0
      simp only [List.length_nil] at h0
      rw [List.length_eq_zero] at h0
      rw [h0] at hxs
      simp at hxs
    refine ⟨x, ?_, hpc ▸ hxc⟩
    rw [hsel]
    have hc0 : ([] : List Article).length < n + 1 := by simp
    simp only [rrLoop, if_pos hc0, if_neg hslen]
    obtain ⟨t, ht⟩ := rrLoop_extends n (n + 1)
      (sweep (n + 1) [] (groupByCat arts)).1
      (sweep (n + 1) [] (groupByCat arts)).2
    rw [ht]
    exact List.mem_append_left _ hxs
  · intro c
    obtain ⟨rest, hrest⟩ := rrLoop_filter_sub cap cap [] (groupByCat arts)
      (groupByCat_keys_nodup arts) (groupByCat_matches arts) c
    rw [findGroup_groupByCat] at hrest
    simp only [List.filter_nil, List.nil_append] at hrest
    rw [hsel]
    have hs := List.sublist_append_left
      ((rrLoop cap cap [] (groupByCat arts)).filter (fun x => catOf x == c)) rest
    rw [hrest] at hs
    exact hs

def yF0 : Article := ⟨"t0", "v0", "s", "en", 0, some "A"⟩
def yF1 : Article := ⟨"t1", "v1", "s", "en", 0, some "B"⟩
def yF2 : Article := ⟨"t2", "v2", "s", "en", 0, some "A"⟩

/-- A concrete 3-article, 2-category input for the fairness floor. -/
def wArts3 : List Article := [yF0, yF1, yF2]

/-- Witness for C10 at a concrete input (3 articles, 2 categories, cap 2). -/
theorem select_fairness_floor_witness :
    (∃ x ∈ select_top_articles wArts3 2, catOf x = "B") ∧
    List.Sublist ((select_top_articles wArts3 2).filter (fun x => catOf x == "A"))
      (wArts3.filter (fun x => catOf x == "A")) :=
  ⟨(select_fairness_floor wArts3 2 (by decide) (by decide)).1 "B" (by decide),
   (select_fairness_floor wArts3 2 (by decide) (by decide)).2 "A"⟩

/-! ## Classifier (`classify_articles`, lines 122–182) -/

/-- The label an article at batch-local index `idx` receives from a batch
response (lines 164–180): a whole-batch failure (`none`: raised exception or
no JSON array in the response text) gives the fallback; otherwise the
response's `idx`-th entry if present and a member of `CATEGORIES`, else the
fallback. -/
def labelFor (resp : Option (List String)) (idx : Nat) : String :=
  match resp with
  | none => FALLBACK
  | some cats =>
    match cats[idx]? with
    | some cat => if cat ∈ CATEGORIES then cat else FALLBACK
    | none => FALLBACK

/-- Assign categories within one batch, `j` being the batch-local index of
the first article (lines 169–180, with both failure branches folded into
`labelFor _ = none`). -/
def assignBatch (resp : Option (List String)) : Nat → List Article → List Article
  | _, [] => []
  | j, a :: rest =>
    { a with category := some (labelFor resp j) } :: assignBatch resp (j + 1) rest

/-- The batch loop of lines 136–180: process `articles[i:i+20]` against the
`i`-th response of the oracle, then recurse on the rest.  `i` counts batches
(the `i`-th API call of the run). -/
def classifyAux (oracle : Nat → Option (List String)) (i : Nat)
    (arts : List Article) : List Article :=
  if arts.isEmpty then []
  else assignBatch (oracle i) 0 (arts.take 20) ++ classifyAux oracle (i + 1) (arts.drop 20)
termination_by arts.length
decreasing_by
  simp only [List.length_drop]
  have : arts ≠ [] := by
    intro hh
    simp [hh] at *
  have := List.length_pos.mpr this
  omega

/-- Function `classify_articles`: without an API key every article gets the fallback
category (lines 124–129); with one, the batch loop runs. -/
def classify_articles (apiKey : Bool) (oracle : Nat → Option (List String))
    (articles : List Article) : List Article :=
  if apiKey then classifyAux oracle 0 articles
  else articles.map fun a => { a with category := some FALLBACK }

lemma assignBatch_getElem (resp : Option (List String)) (j k : Nat)
    (b : List Article) :
    (assignBatch resp j b)[k]? =
      (b[k]?).map fun a => { a with category := some (labelFor resp (j + k)) } := by
  induction b generalizing j k with
  | nil => simp [assignBatch]
  | cons a rest ih =>
    cases k with
    | zero => simp [assignBatch]
    | succ k =>
      simp only [assignBatch, List.getElem?_cons_succ, ih (j + 1) k]
      have : j + 1 + k = j + (k + 1) := by omega
      rw [this]

lemma assignBatch_length (resp : Option (List String)) (j : Nat)
    (b : List Article) : (assignBatch resp j b).length = b.length := by
  induction b generalizing j with
  | nil => simp [assignBatch]
  | cons a rest ih => simp [assignBatch, ih]

lemma classifyAux_getElem (oracle : Nat → Option (List String)) :
    ∀ (n : Nat) (arts : List Article), arts.length ≤ n →
    ∀ (i k : Nat) (a : Article), arts[k]? = some a →
    (classifyAux oracle i arts)[k]? =
      some { a with category := some (labelFor (oracle (i + k / 20)) (k % 20)) } := by
  intro n
  induction n with
  | zero =>
    intro arts hle i k a hk
    have : arts = [] := List.length_eq_zero.mp (by omega)
    subst this
    simp at hk
  | succ n ih =>
    intro arts hle i k a hk
    have hne : ¬ arts.isEmpty := by
      intro hh
      rw [List.isEmpty_iff] at hh
      subst hh
      simp at hk
    have hklt : k < arts.length := by
      by_contra hcon
      rw [List.getElem?_eq_none (by omega)] at hk
      exact Option.noConfusion hk
    rw [classifyAux, if_neg hne]
    by_cases hk20 : k < 20
    · have hkt : k < (arts.take 20).length := by
        simp only [List.length_take]
        omega
      have hlen : (assignBatch (oracle i) 0 (arts.take 20)).length
          = (arts.take 20).length := assignBatch_length _ _ _
      rw [List.getElem?_append, if_pos (by omega)]
      rw [assignBatch_getElem]
      have htk : (arts.take 20)[k]? = some a := by
        rw [List.getElem?_take_of_lt hk20]
        exact hk
      rw [htk]
      have hdiv : k / 20 = 0 := Nat.div_eq_of_lt hk20
      have hmod : k % 20 = k := Nat.mod_eq_of_lt hk20
      simp [hdiv, hmod]
    · have h20 : 20 ≤ arts.length := by omega
      have hlen : (assignBatch (oracle i) 0 (arts.take 20)).length = 20 := by
        rw [assignBatch_length]
        simp only [List.length_take]
        omega
      rw [List.getElem?_append, if_neg (by omega)]
      rw [hlen]
      have hdk : (arts.drop 20)[k - 20]? = some a := by
        rw [List.getElem?_drop]
        have : 20 + (k - 20) = k := by omega
        rw [this]
        exact hk
      have hdl : (arts.drop 20).length ≤ n := by
        simp only [List.length_drop]
        omega
      rw [ih (arts.drop 20) hdl (i + 1) (k - 20) a hdk]
      have h1 : i + 1 + (k - 20) / 20 = i + k / 20 := by omega
      have h2 : (k - 20) % 20 = k % 20 := by omega
      rw [h1, h2]

/-- C7: pointwise characterization of classification: with an API key, the
article at position `k` of the output is the input article at `k` with its
category set to `labelFor (oracle (k / 20)) (k % 20)` — it depends only on
that article's own batch (`k / 20`) and batch-local index (`k % 20`).  Hence
a batch whose response fails entirely (`none`) gets the fallback category
`"AI製品・ツール"` on every one of its articles while all other batches are
unaffected, and within a parsed batch each article independently gets the
classifier's label exactly when that label exists at its index and is in
`CATEGORIES`, the fallback otherwise. -/
theorem classify_articles_pointwise (oracle : Nat → Option (List String))
    (arts : List Article) (k : Nat) (a : Article) (hk : arts[k]? = some a) :
    (classify_articles true oracle arts)[k]? =
      some { a with category := some (labelFor (oracle (k / 20)) (k % 20)) } := by
  have := classifyAux_getElem oracle arts.length arts (le_refl _) 0 k a hk
  simpa [classify_articles] using this

def zArt : Article := ⟨"z", "uz", "s", "en", 0, none⟩

/-- Witness for C7: a one-article input whose batch response fails entirely
gets the fallback category at position 0. -/
theorem classify_articles_pointwise_witness :
    (classify_articles true (fun _ => none) [zArt])[0]? =
      some { zArt with category := some (labelFor none 0) } :=
  classify_articles_pointwise (fun _ => none) [zArt] 0 zArt (by decide)

lemma labelFor_mem (resp : Option (List String)) (idx : Nat) :
    labelFor resp idx ∈ CATEGORIES := by
  have hFB : FALLBACK ∈ CATEGORIES := by decide
  cases resp with
  | none => exact hFB
  | some cats =>
    show (match cats[idx]? with
      | some cat => if cat ∈ CATEGORIES then cat else FALLBACK
      | none => FALLBACK) ∈ CATEGORIES
    cases cats[idx]? with
    | none => exact hFB
    | some cat =>
      by_cases hmem : cat ∈ CATEGORIES
      · simpa [if_pos hmem] using hmem
      · simp only [if_neg hmem]
        exact hFB

lemma assignBatch_category_mem (resp : Option (List String)) (j : Nat)
    (b : List Article) :
    ∀ a ∈ assignBatch resp j b, ∃ c, a.category = some c ∧ c ∈ CATEGORIES := by
  induction b generalizing j with
  | nil => simp [assignBatch]
  | cons x rest ih =>
    intro a ha
    rcases List.mem_cons.mp ha with rfl | ha'
    · exact ⟨labelFor resp j, rfl, labelFor_mem resp j⟩
    · exact ih (j + 1) a ha'

lemma classifyAux_category_mem (oracle : Nat → Option (List String)) :
    ∀ (n : Nat) (arts : List Article), arts.length ≤ n → ∀ (i : Nat),
    ∀ a ∈ classifyAux oracle i arts, ∃ c, a.category = some c ∧ c ∈ CATEGORIES := by
  intro n
  induction n with
  | zero =>
    intro arts hle i a ha
    have : arts = [] := List.length_eq_zero.mp (by omega)
    subst this
    simp [classifyAux] at ha
  | succ n ih =>
    intro arts hle i a ha
    by_cases hne : arts.isEmpty
    · rw [classifyAux, if_pos hne] at ha
      simp at ha
    · rw [classifyAux, if_neg hne] at ha
      rcases List.mem_append.mp ha with hl | hr
      · exact assignBatch_category_mem (oracle i) 0 (arts.take 20) a hl
      · have hdl : (arts.drop 20).length ≤ n := by
          have : arts ≠ [] := by
            intro hh
            rw [hh] at hne
            simp at hne
          have := List.length_pos.mpr this
          simp only [List.length_drop]
          omega
        exact ih (arts.drop 20) hdl (i + 1) a hr

/-- C9: category membership invariant: on every path of `classify_articles`
(no API key, whole-batch failure, parsed response with valid, invalid or
missing labels), every returned article carries an assigned category that is
a member of the fixed `CATEGORIES` enumeration — never an unvalidated
free-form string from the classifier output. -/
theorem classify_articles_category_mem (apiKey : Bool)
    (oracle : Nat → Option (List String)) (arts : List Article) :
    ∀ a ∈ classify_articles apiKey oracle arts,
      ∃ c, a.category = some c ∧ c ∈ CATEGORIES := by
  intro a ha
  cases apiKey with
  | true =>
    rw [classify_articles, if_pos rfl] at ha
    exact classifyAux_category_mem oracle arts.length arts (le_refl _) 0 a ha
  | false =>
    rw [classify_articles, if_neg (by simp)] at ha
    simp only [List.mem_map] at ha
    obtain ⟨b, _, rfl⟩ := ha
    exact ⟨FALLBACK, rfl, by decide⟩

/-- Witness for C9: the single article of a keyless run carries a category
from the enumeration. -/
theorem classify_articles_category_mem_witness :
    ∃ c, (Article.mk "z" "uz" "s" "en" 0 (some FALLBACK)).category = some c
      ∧ c ∈ CATEGORIES :=
  classify_articles_category_mem false (fun _ => none) [zArt]
    (Article.mk "z" "uz" "s" "en" 0 (some FALLBACK)) (by decide)

/-! ## Archive Store (`save_articles` / `load_recent_articles`, lines 220–251)

Timestamps carry minute precision here because `load_recent_articles`
compares each file's *midnight* datetime against `datetime.now(JST) -
timedelta(days=KEEP_DAYS)`, which carries the run's time of day: a run at
minute `m` of day `today` sits at instant `1440 * today + m` (`0 ≤ m < 1440`). -/

/-- The constant `KEEP_DAYS = 7`. -/
def KEEP_DAYS : Int := 7

/-- One file of `data/articles/`: `stem` is the result of
`datetime.strptime(path.stem, "%Y-%m-%d")` (`none` for a file whose name is
not a date), `content` the result of `json.load` (`none` = the JSON is
unparseable and `json.load` raises). -/
structure FileEntry where
  stem : Option Int
  content : Option (List Article)
deriving DecidableEq, Repr

/-- Function `load_recent_articles` over the sorted directory listing: skip files with
undated names; delete (drop from the directory) dated files strictly older
than the cutoff `now - 7 days`; `json.load` the rest, a parse failure
raising out of the whole call (`Except.error ()`).  Returns the date-keyed
mapping in iteration order and the directory contents left on disk. -/
def loadRecent (nowM : Int) :
    List FileEntry → Except Unit (List (Int × List Article) × List FileEntry)
  | [] => Except.ok ([], [])
  | f :: rest =>
    match f.stem with
    | none =>
      match loadRecent nowM rest with
      | Except.error e => Except.error e
      | Except.ok (m, r) => Except.ok (m, f :: r)
    | some d =>
      if 1440 * d < nowM - 1440 * KEEP_DAYS then loadRecent nowM rest
      else
        match f.content with
        | none => Except.error ()
        | some arts =>
          match loadRecent nowM rest with
          | Except.error e => Except.error e
          | Except.ok (m, r) => Except.ok ((d, arts) :: m, f :: r)

/-- C5: retention pruning: loading a directory holding files dated `today`,
`today - 6` and `today - 8` at any time of day `m` of day `today` returns
the mapping with exactly the `today - 6` and `today` entries (in iteration
order) and deletes the `today - 8` file, leaving the other two on disk. -/
theorem loadRecent_retention (today m : Int) (h0 : 0 ≤ m) (h1 : m < 1440)
    (c8 c6 c0 : List Article) :
    loadRecent (1440 * today + m)
      [⟨some (today - 8), some c8⟩, ⟨some (today - 6), some c6⟩,
       ⟨some today, some c0⟩]
    = Except.ok ([(today - 6, c6), (today, c0)],
        [⟨some (today - 6), some c6⟩, ⟨some today, some c0⟩]) := by
  have hdel : 1440 * (today - 8) < 1440 * today + m - 1440 * KEEP_DAYS := by
    simp only [KEEP_DAYS]
    omega
  have hkeep6 : ¬ 1440 * (today - 6) < 1440 * today + m - 1440 * KEEP_DAYS := by
    simp only [KEEP_DAYS]
    omega
  have hkeep0 : ¬ 1440 * today < 1440 * today + m - 1440 * KEEP_DAYS := by
    simp only [KEEP_DAYS]
    omega
  simp only [loadRecent, if_pos hdel, if_neg hkeep6, if_neg hkeep0]

/-- Witness for C5 with day 0, midnight, empty contents. -/
theorem loadRecent_retention_witness :
    loadRecent 0
      [⟨some (-8), some []⟩, ⟨some (-6), some []⟩, ⟨some 0, some []⟩]
    = Except.ok ([(-6, []), (0, [])],
        [⟨some (-6), some []⟩, ⟨some 0, some []⟩]) := by
  have := loadRecent_retention 0 0 (by omega) (by omega) [] [] []
  simpa using this

/-- C6: archive corruption is fatal, stray names are tolerated: if some file
whose name parses as a date inside the retention horizon has unparseable
JSON, `loadRecent` returns the uncaught error (no partial mapping); and on
any successful load, every file whose name is not a date is still on disk
(never deleted), and every mapping entry comes from a date-named file with
parsed content (stray files contribute nothing to the mapping). -/
theorem loadRecent_corruption_stray (nowM : Int) (files : List FileEntry) :
    ((∃ f ∈ files, (∃ d, f.stem = some d ∧
        ¬ 1440 * d < nowM - 1440 * KEEP_DAYS) ∧ f.content = none) →
      loadRecent nowM files = Except.error ()) ∧
    (∀ mp rem, loadRecent nowM files = Except.ok (mp, rem) →
      (∀ f ∈ files, f.stem = none → f ∈ rem) ∧
      (∀ e ∈ mp, ∃ f ∈ files, f.stem = some e.1 ∧ f.content = some e.2)) := by
  induction files with
  | nil =>
    refine ⟨by simp, ?_⟩
    intro mp rem h
    simp only [loadRecent, Except.ok.injEq, Prod.mk.injEq] at h
    obtain ⟨rfl, rfl⟩ := h
    simp
  | cons f rest ih =>
    constructor
    · rintro ⟨g, hg, ⟨d, hgd, hnd⟩, hgc⟩
      rcases List.mem_cons.mp hg with rfl | hg'
      · simp only [loadRecent, hgd, if_neg hnd, hgc]
      · have herr := ih.1 ⟨g, hg', ⟨d, hgd, hnd⟩, hgc⟩
        cases hstem : f.stem with
        | none => simp only [loadRecent, hstem, herr]
        | some d' =>
          by_cases hd : 1440 * d' < nowM - 1440 * KEEP_DAYS
          · simp only [loadRecent, hstem, if_pos hd, herr]
          · cases hcon : f.content with
            | none => simp only [loadRecent, hstem, if_neg hd, hcon]
            | some arts =>
              simp only [loadRecent, hstem, if_neg hd, hcon, herr]
    · intro mp rem hok
      cases hstem : f.stem with
      | none =>
        simp only [loadRecent, hstem] at hok
        cases hrec : loadRecent nowM rest with
        | error e =>
          rw [hrec] at hok
          exact Except.noConfusion hok
        | ok pr =>
          obtain ⟨m0, r0⟩ := pr
          rw [hrec] at hok
          simp only [Except.ok.injEq, Prod.mk.injEq] at hok
          obtain ⟨rfl, rfl⟩ := hok
          obtain ⟨hstr, hjust⟩ := ih.2 m0 r0 hrec
          constructor
          · intro g hg hgd
            rcases List.mem_cons.mp hg with rfl | hg'
            · exact List.mem_cons_self _ _
            · exact List.mem_cons_of_mem _ (hstr g hg' hgd)
          · intro e he
            obtain ⟨g, hg, hgs, hgc⟩ := hjust e he
            exact ⟨g, List.mem_cons_of_mem _ hg, hgs, hgc⟩
      | some d =>
        simp only [loadRecent, hstem] at hok
        by_cases hd : 1440 * d < nowM - 1440 * KEEP_DAYS
        · rw [if_pos hd] at hok
          obtain ⟨hstr, hjust⟩ := ih.2 mp rem hok
          constructor
          · intro g hg hgd
            rcases List.mem_cons.mp hg with rfl | hg'
            · rw [hgd] at hstem
              exact Option.noConfusion hstem
            · exact hstr g hg' hgd
          · intro e he
            obtain ⟨g, hg, hgs, hgc⟩ := hjust e he
            exact ⟨g, List.mem_cons_of_mem _ hg, hgs, hgc⟩
        · rw [if_neg hd] at hok
          cases hcon : f.content with
          | none =>
            rw [hcon] at hok
            exact Except.noConfusion hok
          | some arts =>
            rw [hcon] at hok
            cases hrec : loadRecent nowM rest with
            | error e =>
              rw [hrec] at hok
              exact Except.noConfusion hok
            | ok pr =>
              obtain ⟨m0, r0⟩ := pr
              rw [hrec] at hok
              simp only [Except.ok.injEq, Prod.mk.injEq] at hok
              obtain ⟨rfl, rfl⟩ := hok
              obtain ⟨hstr, hjust⟩ := ih.2 m0 r0 hrec
              constructor
              · intro g hg hgd
                rcases List.mem_cons.mp hg with rfl | hg'
                · rw [hgd] at hstem
                  exact Option.noConfusion hstem
                · exact List.mem_cons_of_mem _ (hstr g hg' hgd)
              · intro e he
                rcases List.mem_cons.mp he with rfl | he'
                · exact ⟨f, List.mem_cons_self _ _, hstem, hcon⟩
                · obtain ⟨g, hg, hgs, hgc⟩ := hjust e he'
                  exact ⟨g, List.mem_cons_of_mem _ hg, hgs, hgc⟩

/-- Witness for C6: a stray-named file followed by an in-horizon dated file
with corrupt JSON makes the load fail. -/
theorem loadRecent_corruption_stray_witness :
    loadRecent 0 [⟨none, some []⟩, ⟨some 0, none⟩] = Except.error () :=
  (loadRecent_corruption_stray 0 [⟨none, some []⟩, ⟨some 0, none⟩]).1
    ⟨⟨some 0, none⟩, List.mem_cons_of_mem _ (List.mem_cons_self _ _),
      ⟨0, rfl, by decide⟩, rfl⟩

/-! ## Main pipeline (`main`, lines 568–607) -/

/-- Function `save_articles` (lines 220–226): write the date-named JSON file, fully replacing
an existing file for that date, else creating a new one. -/
def save_articles (archive : List FileEntry) (d : Int) (arts : List Article) :
    List FileEntry :=
  if archive.any (fun f => f.stem == some d) then
    archive.map fun f => if f.stem == some d then ⟨some d, some arts⟩ else f
  else archive ++ [⟨some d, some arts⟩]

/-- The effect of one run of `main` after the sources have been fetched:
`fetched` is the concatenation of all `fetch_rss` results, `render` the
HTML generation (an external collaborator, abstracted), `output` the
current content of `ai-topics/index.html`.  Returns
`(classifierInvoked, archive, output)`; `Except.error ()` is an archive
corruption abort during `load_recent_articles`. -/
def runMain (render : List (Int × List Article) → String)
    (apiKey : Bool) (oracle : Nat → Option (List String))
    (today nowM : Int) (fetched : List Article)
    (archive : List FileEntry) (output : Option String) :
    Except Unit (Bool × List FileEntry × Option String) :=
  let articles := collectFilter today fetched
  if articles.isEmpty then Except.ok (false, archive, output)
  else
    let classified := classify_articles apiKey oracle articles
    let selected := select_top_articles classified 15
    let archive1 := save_articles archive today selected
    match loadRecent nowM archive1 with
    | Except.error e => Except.error e
    | Except.ok (mp, archive2) => Except.ok (true, archive2, some (render mp))

/-- C8: zero-articles early exit: when collection plus filtering yields no
articles, the run ends without error, the classifier is never invoked, no
archive file is written or pruned, and the output document is left exactly
as it was. -/
theorem runMain_zero_articles (render : List (Int × List Article) → String)
    (apiKey : Bool) (oracle : Nat → Option (List String))
    (today nowM : Int) (fetched : List Article)
    (archive : List FileEntry) (output : Option String)
    (h : collectFilter today fetched = []) :
    runMain render apiKey oracle today nowM fetched archive output
      = Except.ok (false, archive, output) := by
  simp only [runMain, h, List.isEmpty_nil, if_pos]

/-- Witness for C8: a run whose fetch produced nothing changes nothing. -/
theorem runMain_zero_articles_witness :
    runMain (fun _ => "") false (fun _ => none) 0 0 []
        [⟨some 0, some []⟩] (some "old")
      = Except.ok (false, [⟨some 0, some []⟩], some "old") :=
  runMain_zero_articles (fun _ => "") false (fun _ => none) 0 0 []
    [⟨some 0, some []⟩] (some "old") rfl
